import Mathlib

/-!
Shallow embedding of the HDC (hyperdimensional computing) core of the
repository: `src/hdc/hdc_core.c` and `src/hdc/hdc_encode.c`.

A hypervector (`hv_t` in the C source) is an array of 16 `uint8_t` bytes,
128 bits in total.  We model a byte as a `Nat` together with the invariant
`inBounds` (every byte `< 256`); wherever the C code can overflow or
truncate a `uint8_t` store, the model takes the value `% 256` explicitly.
Bit `i` of a hypervector lives in byte `i / 8` at sub-bit `i % 8`
(LSB-first within a byte), as in the C bit-addressing.
-/

/-- `HV_DIMENSIONS` from `hdc_core.h`: number of bits in a hypervector. -/
def HV_DIMENSIONS : Nat := 128

/-- `HV_BYTES` from `hdc_core.h`: number of bytes in a hypervector. -/
def HV_BYTES : Nat := 16

/-- `THERMO_LEVELS` from `hdc_encode.h`: number of thermometer levels. -/
def THERMO_LEVELS : Nat := 128

/-- `ADC_MAX` from `hdc_encode.h`: maximum 10-bit ADC value. -/
def ADC_MAX : Nat := 1023

/-- The hypervector type `hv_t`: 16 bytes, each a `uint8_t` modelled as `Nat`. -/
abbrev hv_t : Type := Fin 16 → Nat

/-- Every byte of the vector is a valid `uint8_t` value. -/
def inBounds (hv : hv_t) : Prop := ∀ i : Fin 16, hv i < 256

instance (hv : hv_t) : Decidable (inBounds hv) := by
  unfold inBounds; infer_instance

/-- `hdc_popcount8` from `hdc_core.c`: SWAR population count of one byte.
Each C assignment stores into a `uint8_t`, hence the `% 256`. -/
def hdc_popcount8 (byte : Nat) : Nat :=
  let b1 := (byte - ((byte >>> 1) &&& 0x55)) % 256
  let b2 := ((b1 &&& 0x33) + ((b1 >>> 2) &&& 0x33)) % 256
  (b2 + (b2 >>> 4)) &&& 0x0F

/-- `hdc_popcount` from `hdc_core.c`: total population count, accumulated
in a `uint8_t` counter (hence the `% 256` on each addition). -/
def hdc_popcount (hv : hv_t) : Nat :=
  (List.finRange 16).foldl (fun count i => (count + hdc_popcount8 (hv i)) % 256) 0

/-- `hdc_xor` from `hdc_core.c`: byte-wise XOR (the binding operation). -/
def hdc_xor (a b : hv_t) : hv_t := fun i => a i ^^^ b i

/-- `hdc_or` from `hdc_core.c`: byte-wise OR. -/
def hdc_or (a b : hv_t) : hv_t := fun i => a i ||| b i

/-- `hdc_and` from `hdc_core.c`: byte-wise AND. -/
def hdc_and (a b : hv_t) : hv_t := fun i => a i &&& b i

/-- `hdc_bundle` from `hdc_core.c`: OR a pattern into a memory vector. -/
def hdc_bundle (memory pattern : hv_t) : hv_t := fun i => memory i ||| pattern i

/-- `hdc_hamming` from `hdc_core.c`: sum of per-byte popcounts of the XOR,
accumulated in a `uint8_t` counter. -/
def hdc_hamming (a b : hv_t) : Nat :=
  (List.finRange 16).foldl (fun distance i => (distance + hdc_popcount8 (a i ^^^ b i)) % 256) 0

/-- `hdc_similarity` from `hdc_core.c`: `HV_DIMENSIONS - hdc_hamming(a, b)`,
cast to `uint8_t` (the subtraction never underflows for in-bounds vectors,
proved below). -/
def hdc_similarity (a b : hv_t) : Nat :=
  (HV_DIMENSIONS - hdc_hamming a b) % 256

/-- `hdc_clear` from `hdc_core.c`: all-zero vector (`memset(hv, 0, 16)`). -/
def hdc_clear : hv_t := fun _ => 0

/-- `hdc_fill` from `hdc_core.c`: fill every byte with a value
(`memset(hv, value, 16)`). -/
def hdc_fill (value : Nat) : hv_t := fun _ => value

/-- `hdc_copy` from `hdc_core.c`: `memcpy(dest, src, 16)`; the destination
buffer's previous contents are irrelevant, the result is the source value. -/
def hdc_copy (dest src : hv_t) : hv_t := fun i => src i

/-- One iteration of the loop in `hdc_permute` (`hdc_core.c`): byte `i` is
shifted into `temp[dest_byte]`, with the carry bits going into the following
byte when `bit_shift` is non-zero.  The `|=` stores into `uint8_t` slots,
hence the `% 256`. -/
def hdc_permute_step (hv : hv_t) (byte_shift bit_shift : Nat) (temp : hv_t) (i : Fin 16) : hv_t :=
  let dest_byte : Fin 16 := ⟨(i.val + byte_shift) % 16, Nat.mod_lt _ (by omega)⟩
  if bit_shift = 0 then
    Function.update temp dest_byte (hv i)
  else
    let t1 : hv_t :=
      Function.update temp dest_byte ((temp dest_byte ||| (hv i <<< bit_shift)) % 256)
    let next_byte : Fin 16 := ⟨(dest_byte.val + 1) % 16, Nat.mod_lt _ (by omega)⟩
    Function.update t1 next_byte ((t1 next_byte ||| (hv i >>> (8 - bit_shift))) % 256)

/-- `hdc_permute` from `hdc_core.c`: circular left rotation of the 128-bit
sequence, in place in C; here the rotated vector is returned. -/
def hdc_permute (hv : hv_t) (shifts : Nat) : hv_t :=
  if shifts = 0 then hv
  else
    let s := shifts % HV_DIMENSIONS
    let byte_shift := s / 8
    let bit_shift := s % 8
    (List.finRange 16).foldl (hdc_permute_step hv byte_shift bit_shift) hdc_clear

/-- The loop in `hdc_encode_thermometer` that sets bytes `0 .. full_bytes-1`
to `0xFF` (the bound check is the Lean-side guard for the `Fin 16` index;
the C loop bound `full_bytes` never exceeds 16). -/
def thermo_set_full (hv : hv_t) : Nat → hv_t
  | 0 => hv
  | n + 1 =>
    let prev := thermo_set_full hv n
    if h : n < 16 then Function.update prev ⟨n, h⟩ 0xFF else prev

/-- `hdc_encode_thermometer` from `hdc_encode.c`.  The `level` computation
`(uint32_t)value * THERMO_LEVELS / max_value` is exact in `Nat` for 16-bit
inputs (no 32-bit overflow: `value * 128 < 2^23`). -/
def hdc_encode_thermometer (value max_value : Nat) : hv_t :=
  let hv := hdc_clear
  if value ≥ max_value then hdc_fill 0xFF
  else
    let level := value * THERMO_LEVELS / max_value
    let full_bytes := level / 8
    let remaining_bits := level % 8
    let hv := thermo_set_full hv full_bytes
    if h : full_bytes < 16 then
      if remaining_bits > 0 then
        Function.update hv ⟨full_bytes, h⟩ ((1 <<< remaining_bits) - 1)
      else hv
    else hv

/-- `hdc_encode_adc` from `hdc_encode.c`. -/
def hdc_encode_adc (adc_value : Nat) : hv_t :=
  hdc_encode_thermometer adc_value ADC_MAX

/-- `hdc_encode_multi_channel` from `hdc_encode.c`: the channel loop reads
`values[ch]` and `basis_vectors[ch]` in lockstep, so it is the fold over the
zipped channel list; `result` is cleared at entry, each channel's encoded
reading is bound (XOR) with its basis vector and bundled (OR) into `result`. -/
def hdc_encode_multi_channel (values : List Nat) (basis_vectors : List hv_t) : hv_t :=
  (values.zip basis_vectors).foldl
    (fun result vb => hdc_bundle result (hdc_xor (hdc_encode_adc vb.1) vb.2))
    hdc_clear

/-- Bit `p` of a hypervector, using the C bit addressing: byte `p / 8`,
sub-bit `p % 8`, LSB-first within each byte. -/
def getBit (hv : hv_t) (p : Fin 128) : Bool :=
  (hv ⟨p.val / 8, by omega⟩).testBit (p.val % 8)

/-- Number of bit positions at which two hypervectors differ. -/
def numDiff (a b : hv_t) : Nat :=
  (Finset.univ.filter (fun p : Fin 128 => getBit a p ≠ getBit b p)).card

/-- `b` is the bit-complement of `a` on all 128 bit positions. -/
def isComplementOf (b a : hv_t) : Prop :=
  ∀ p : Fin 128, getBit b p = ! getBit a p

-- sanity checks while developing
example : hdc_popcount8 0xFF = 8 := by decide
example : hdc_popcount8 0x55 = 4 := by decide
example : hdc_popcount (hdc_fill 0xFF) = 128 := by decide
example : hdc_hamming hdc_clear (hdc_fill 0xFF) = 128 := by decide
example : hdc_similarity hdc_clear (hdc_fill 0xFF) = 0 := by decide
example : hdc_popcount (hdc_encode_thermometer 512 1024) = 64 := by decide
example : hdc_permute (Function.update hdc_clear 0 0xFF) 8 =
    Function.update hdc_clear 1 0xFF := by decide
example : hdc_popcount (hdc_permute (Function.update hdc_clear 3 0xA7) 13) =
    hdc_popcount (Function.update hdc_clear 3 0xA7) := by decide

/-! ### Byte-level facts -/

set_option maxRecDepth 4096 in
lemma hdc_popcount8_eq_card_aux :
    ∀ b : Fin 256, hdc_popcount8 b.val =
      (Finset.univ.filter (fun k : Fin 8 => b.val.testBit k.val)).card := by decide

/-- The SWAR popcount of a byte counts exactly its set bits. -/
lemma hdc_popcount8_eq_card (b : Nat) (hb : b < 256) :
    hdc_popcount8 b = (Finset.univ.filter (fun k : Fin 8 => b.testBit k.val)).card :=
  hdc_popcount8_eq_card_aux ⟨b, hb⟩

set_option maxRecDepth 4096 in
lemma hdc_popcount8_le_aux : ∀ b : Fin 256, hdc_popcount8 b.val ≤ 8 := by decide

lemma hdc_popcount8_le (b : Nat) (hb : b < 256) : hdc_popcount8 b ≤ 8 :=
  hdc_popcount8_le_aux ⟨b, hb⟩

lemma two_pow_eight : (256 : Nat) = 2 ^ 8 := by norm_num

lemma or_lt_256 {a b : Nat} (ha : a < 256) (hb : b < 256) : a ||| b < 256 := by
  rw [two_pow_eight] at *
  exact Nat.or_lt_two_pow ha hb

lemma xor_lt_256 {a b : Nat} (ha : a < 256) (hb : b < 256) : a ^^^ b < 256 := by
  rw [two_pow_eight] at *
  exact Nat.xor_lt_two_pow ha hb

/-- The `uint8_t` truncation distributes over OR. -/
lemma or_mod_256 (a b : Nat) : (a ||| b) % 256 = a % 256 ||| b % 256 := by
  apply Nat.eq_of_testBit_eq
  intro j
  rw [two_pow_eight]
  simp only [Nat.testBit_mod_two_pow, Nat.testBit_or]
  exact Bool.and_or_distrib_left _ _ _

lemma testBit_of_ge_eight {x k : Nat} (hx : x < 256) (hk : 8 ≤ k) :
    x.testBit k = false := by
  apply Nat.testBit_eq_false_of_lt
  calc x < 256 := hx
    _ = 2 ^ 8 := two_pow_eight
    _ ≤ 2 ^ k := Nat.pow_le_pow_right (by norm_num) hk

/-! ### The `uint8_t` accumulator never wraps -/

/-- A fold that adds per-step summands bounded by 8 into a `uint8_t`
accumulator never wraps as long as it stays under 256; it computes the
plain sum. -/
lemma foldl_mod256_eq (g : Fin 16 → Nat) :
    ∀ (l : List (Fin 16)) (c : Nat), (∀ i, g i ≤ 8) → c + 8 * l.length ≤ 255 →
      l.foldl (fun count i => (count + g i) % 256) c = c + (l.map g).sum := by
  intro l
  induction l with
  | nil => intro c _ _; simp
  | cons i l ih =>
    intro c hg hlen
    have hgi : g i ≤ 8 := hg i
    have hlt : c + g i < 256 := by
      simp only [List.length_cons] at hlen; omega
    simp only [List.foldl_cons, List.map_cons, List.sum_cons]
    rw [Nat.mod_eq_of_lt hlt, ih (c + g i) hg (by simp only [List.length_cons] at hlen; omega)]
    omega

/-- `hdc_popcount` equals the plain (non-truncated) sum of per-byte popcounts. -/
lemma hdc_popcount_eq_sum (hv : hv_t) (hb : inBounds hv) :
    hdc_popcount hv = ∑ i : Fin 16, hdc_popcount8 (hv i) := by
  rw [Fin.sum_univ_def]
  unfold hdc_popcount
  rw [foldl_mod256_eq (fun i => hdc_popcount8 (hv i)) (List.finRange 16) 0
    (fun i => hdc_popcount8_le _ (hb i)) (by rw [List.length_finRange]; norm_num),
    Nat.zero_add]

/-- `hdc_hamming` equals the plain sum of per-byte popcounts of the XOR. -/
lemma hdc_hamming_eq_sum (a b : hv_t) (ha : inBounds a) (hb : inBounds b) :
    hdc_hamming a b = ∑ i : Fin 16, hdc_popcount8 (a i ^^^ b i) := by
  rw [Fin.sum_univ_def]
  unfold hdc_hamming
  rw [foldl_mod256_eq (fun i => hdc_popcount8 (a i ^^^ b i)) (List.finRange 16) 0
    (fun i => hdc_popcount8_le _ (xor_lt_256 (ha i) (hb i)))
    (by rw [List.length_finRange]; norm_num), Nat.zero_add]

/-! ### Bit positions: bytes × sub-bits ≃ positions -/

/-- Byte index and sub-bit index to bit position, following the C addressing
(`bit i` lives in byte `i / 8`, sub-bit `i % 8`). -/
def bytePos : Fin 16 × Fin 8 ≃ Fin 128 where
  toFun ik := ⟨8 * ik.1.val + ik.2.val, by omega⟩
  invFun p := (⟨p.val / 8, by omega⟩, ⟨p.val % 8, by omega⟩)
  left_inv := by
    rintro ⟨⟨i, hi⟩, ⟨k, hk⟩⟩
    simp only [Prod.mk.injEq, Fin.mk.injEq]
    constructor <;> omega
  right_inv := by
    rintro ⟨p, hp⟩
    simp only [Fin.mk.injEq]
    omega

lemma getBit_bytePos (hv : hv_t) (i : Fin 16) (k : Fin 8) :
    getBit hv (bytePos (i, k)) = (hv i).testBit k.val := by
  unfold getBit bytePos
  simp only [Equiv.coe_fn_mk]
  have h1 : (⟨(8 * i.val + k.val) / 8, by omega⟩ : Fin 16) = i := by
    apply Fin.ext; simp only []; omega
  have h2 : (8 * i.val + k.val) % 8 = k.val := by omega
  rw [h1, h2]

/-- Number of set bit positions of a hypervector. -/
def numOnes (hv : hv_t) : Nat :=
  (Finset.univ.filter (fun p : Fin 128 => getBit hv p)).card

/-- For in-bounds vectors, `hdc_popcount` counts exactly the set bit positions. -/
lemma hdc_popcount_eq_numOnes (hv : hv_t) (hb : inBounds hv) :
    hdc_popcount hv = numOnes hv := by
  rw [hdc_popcount_eq_sum hv hb]
  unfold numOnes
  rw [Finset.card_filter]
  rw [← Fintype.sum_equiv bytePos
    (fun ik : Fin 16 × Fin 8 => if getBit hv (bytePos ik) then 1 else 0)
    (fun p : Fin 128 => if getBit hv p then 1 else 0) (fun ik => rfl)]
  rw [Fintype.sum_prod_type]
  apply Finset.sum_congr rfl
  intro i _
  rw [hdc_popcount8_eq_card (hv i) (hb i), Finset.card_filter]
  apply Finset.sum_congr rfl
  intro k _
  rw [getBit_bytePos]

/-! ### Characterizing the permute loop -/

lemma or_or_idem (x a : Nat) : (x ||| a) ||| a = x ||| a := by
  rw [Nat.or_assoc, Nat.or_self]

lemma natOr_rotate (x a b : Nat) : x ||| a ||| b = x ||| b ||| a := by
  rw [Nat.or_assoc, Nat.or_assoc, Nat.or_comm a b]

lemma shiftRight_lt_256 {x : Nat} (hx : x < 256) (n : Nat) : x >>> n < 256 := by
  rw [Nat.shiftRight_eq_div_pow]
  exact Nat.lt_of_le_of_lt (Nat.div_le_self _ _) hx

/-- Destination byte of source byte `i` in the permute loop. -/
def destByte (byte_shift : Nat) (i : Fin 16) : Fin 16 :=
  ⟨(i.val + byte_shift) % 16, Nat.mod_lt _ (by omega)⟩

/-- Byte receiving the carry bits of source byte `i` in the permute loop. -/
def nextByte (byte_shift : Nat) (i : Fin 16) : Fin 16 :=
  ⟨((i.val + byte_shift) % 16 + 1) % 16, Nat.mod_lt _ (by omega)⟩

/-- The source byte whose (shifted-up) low bits land in byte `d`. -/
def srcLow (byte_shift : Nat) (d : Fin 16) : Fin 16 :=
  ⟨(d.val + 16 - byte_shift) % 16, Nat.mod_lt _ (by omega)⟩

/-- The source byte whose carried high bits land in byte `d`. -/
def srcHigh (byte_shift : Nat) (d : Fin 16) : Fin 16 :=
  ⟨(d.val + 15 - byte_shift) % 16, Nat.mod_lt _ (by omega)⟩

lemma nextByte_ne_destByte (bs : Nat) (i : Fin 16) : nextByte bs i ≠ destByte bs i := by
  simp only [nextByte, destByte, Ne, Fin.mk.injEq]
  omega

lemma hdc_permute_step_apply_ne0 (hv : hv_t) (bs t : Nat) (ht : t ≠ 0)
    (temp : hv_t) (i d : Fin 16) :
    hdc_permute_step hv bs t temp i d =
      if d = nextByte bs i then (temp (nextByte bs i) ||| (hv i >>> (8 - t))) % 256
      else if d = destByte bs i then (temp (destByte bs i) ||| (hv i <<< t)) % 256
      else temp d := by
  have hne := nextByte_ne_destByte bs i
  simp only [hdc_permute_step, if_neg ht, Function.update_apply]
  by_cases hdn : d = nextByte bs i
  · simp only [nextByte, destByte] at hdn hne ⊢
    rw [if_pos hdn, if_pos hdn, if_neg hne]
  · simp only [nextByte, destByte] at hdn hne ⊢
    rw [if_neg hdn, if_neg hdn]

lemma hdc_permute_step_apply_eq0 (hv : hv_t) (bs : Nat)
    (temp : hv_t) (i d : Fin 16) :
    hdc_permute_step hv bs 0 temp i d =
      if d = destByte bs i then hv i else temp d := by
  simp only [hdc_permute_step, eq_self_iff_true, if_true, Function.update_apply, destByte]

lemma hdc_permute_step_bound (hv : hv_t) (hb : inBounds hv) (bs t : Nat)
    (temp : hv_t) (htemp : ∀ j, temp j < 256) (i : Fin 16) :
    ∀ j, hdc_permute_step hv bs t temp i j < 256 := by
  intro j
  by_cases ht : t = 0
  · subst ht
    rw [hdc_permute_step_apply_eq0]
    split
    · exact hb i
    · exact htemp j
  · rw [hdc_permute_step_apply_ne0 hv bs t ht]
    split
    · exact Nat.mod_lt _ (by norm_num)
    · split
      · exact Nat.mod_lt _ (by norm_num)
      · exact htemp j

lemma srcLow_eq_iff (bs : Nat) (hbs : bs < 16) (d i : Fin 16) :
    srcLow bs d = i ↔ d = destByte bs i := by
  simp only [srcLow, destByte, Fin.ext_iff]
  omega

lemma srcHigh_eq_iff (bs : Nat) (hbs : bs < 16) (d i : Fin 16) :
    srcHigh bs d = i ↔ d = nextByte bs i := by
  simp only [srcHigh, nextByte, Fin.ext_iff]
  omega

/-- Loop characterization, `bit_shift = 0` case: after processing the source
bytes in `l`, byte `d` holds the rotated source byte if its source was
processed, and its initial value otherwise. -/
lemma permute_foldl_eq0 (hv : hv_t) (bs : Nat) (hbs : bs < 16) :
    ∀ (l : List (Fin 16)) (temp : hv_t) (d : Fin 16),
      l.foldl (hdc_permute_step hv bs 0) temp d =
        if srcLow bs d ∈ l then hv (srcLow bs d) else temp d := by
  intro l
  induction l with
  | nil => intro temp d; simp
  | cons i l ih =>
    intro temp d
    rw [List.foldl_cons, ih, hdc_permute_step_apply_eq0]
    by_cases hmem : srcLow bs d ∈ l
    · rw [if_pos hmem, if_pos (List.mem_cons_of_mem i hmem)]
    · rw [if_neg hmem]
      by_cases heq : srcLow bs d = i
      · rw [if_pos (List.mem_cons.mpr (Or.inl heq)), if_pos ((srcLow_eq_iff bs hbs d i).mp heq),
          heq]
      · rw [if_neg (fun h => heq ((srcLow_eq_iff bs hbs d i).mpr h)),
          if_neg (by simp only [List.mem_cons]; tauto)]

/-- Loop characterization, `bit_shift ≠ 0` case: after processing the source
bytes in `l`, byte `d` is its initial value ORed with the shifted low part
and the carried high part of its two source bytes (when processed). -/
lemma permute_foldl_ne0 (hv : hv_t) (bs t : Nat) (hb : inBounds hv)
    (hbs : bs < 16) (ht : t ≠ 0) :
    ∀ (l : List (Fin 16)) (temp : hv_t), (∀ j, temp j < 256) →
      ∀ d : Fin 16,
      l.foldl (hdc_permute_step hv bs t) temp d =
        (temp d ||| (if srcLow bs d ∈ l then (hv (srcLow bs d) <<< t) % 256 else 0))
          ||| (if srcHigh bs d ∈ l then hv (srcHigh bs d) >>> (8 - t) else 0) := by
  intro l
  induction l with
  | nil => intro temp _ d; simp
  | cons i l ih =>
    intro temp htemp d
    rw [List.foldl_cons,
      ih (hdc_permute_step hv bs t temp i) (hdc_permute_step_bound hv hb bs t temp htemp i),
      hdc_permute_step_apply_ne0 hv bs t ht]
    have hmodtemp : temp d % 256 = temp d := Nat.mod_eq_of_lt (htemp d)
    by_cases hdn : d = nextByte bs i
    · -- byte `d` receives the carry bits of source byte `i`
      have hH : srcHigh bs d = i := (srcHigh_eq_iff bs hbs d i).mpr hdn
      have hLne : srcLow bs d ≠ i := by
        intro h
        exact nextByte_ne_destByte bs i (hdn ▸ (srcLow_eq_iff bs hbs d i).mp h)
      rw [if_pos hdn, ← hdn]
      have hB : temp d ||| hv i >>> (8 - t) < 256 :=
        or_lt_256 (htemp d) (shiftRight_lt_256 (hb i) _)
      rw [Nat.mod_eq_of_lt hB, hH]
      simp only [List.mem_cons, hLne, false_or, eq_self_iff_true, true_or, if_true]
      by_cases hHl : i ∈ l
      · rw [if_pos hHl]
        by_cases hLl : srcLow bs d ∈ l
        · rw [if_pos hLl,
            natOr_rotate (temp d ||| hv i >>> (8 - t)) ((hv (srcLow bs d) <<< t) % 256)
              (hv i >>> (8 - t)),
            or_or_idem, natOr_rotate]
        · rw [if_neg hLl, Nat.or_zero, Nat.or_zero, or_or_idem]
      · rw [if_neg hHl]
        by_cases hLl : srcLow bs d ∈ l
        · rw [if_pos hLl, Nat.or_zero, natOr_rotate]
        · rw [if_neg hLl, Nat.or_zero, Nat.or_zero, Nat.or_zero]
    · by_cases hdd : d = destByte bs i
      · -- byte `d` receives the shifted-up low bits of source byte `i`
        have hL : srcLow bs d = i := (srcLow_eq_iff bs hbs d i).mpr hdd
        have hHne : srcHigh bs d ≠ i := by
          intro h
          exact hdn ((srcHigh_eq_iff bs hbs d i).mp h)
        rw [if_neg hdn, if_pos hdd, ← hdd, or_mod_256, hmodtemp, hL]
        simp only [List.mem_cons, hHne, false_or, eq_self_iff_true, true_or, if_true]
        by_cases hLl : i ∈ l
        · rw [if_pos hLl, or_or_idem]
        · rw [if_neg hLl, Nat.or_zero]
      · -- byte `d` is untouched by source byte `i`
        have hLne : srcLow bs d ≠ i := fun h => hdd ((srcLow_eq_iff bs hbs d i).mp h)
        have hHne : srcHigh bs d ≠ i := fun h => hdn ((srcHigh_eq_iff bs hbs d i).mp h)
        rw [if_neg hdn, if_neg hdd]
        simp only [List.mem_cons, hLne, hHne, false_or]

/-- Closed form: byte `d` of the permuted vector, for a non-zero shift. -/
lemma hdc_permute_apply (hv : hv_t) (hb : inBounds hv) (s : Nat) (hs : s ≠ 0) (d : Fin 16) :
    hdc_permute hv s d =
      if s % 128 % 8 = 0 then hv (srcLow (s % 128 / 8) d)
      else (hv (srcLow (s % 128 / 8) d) <<< (s % 128 % 8) % 256)
             ||| (hv (srcHigh (s % 128 / 8) d) >>> (8 - s % 128 % 8)) := by
  have hbs : s % 128 / 8 < 16 := by omega
  unfold hdc_permute
  rw [if_neg hs]
  simp only [HV_DIMENSIONS]
  by_cases ht : s % 128 % 8 = 0
  · rw [if_pos ht, ht,
      permute_foldl_eq0 hv (s % 128 / 8) hbs (List.finRange 16) hdc_clear d,
      if_pos (List.mem_finRange _)]
  · rw [if_neg ht,
      permute_foldl_ne0 hv (s % 128 / 8) (s % 128 % 8) hb hbs ht (List.finRange 16)
        hdc_clear (fun j => by norm_num [hdc_clear]) d,
      if_pos (List.mem_finRange _), if_pos (List.mem_finRange _)]
    simp only [hdc_clear, Nat.zero_or]

/-- `permute(hv, 0)` is a no-op (the early return in the C code). -/
lemma hdc_permute_zero (hv : hv_t) : hdc_permute hv 0 = hv := by
  simp [hdc_permute]

/-- `permute(hv, 128)` is a no-op: the shift reduces to `0 mod 128`. -/
lemma hdc_permute_128 (hv : hv_t) : hdc_permute hv 128 = hv := by
  funext d
  unfold hdc_permute
  rw [if_neg (by norm_num)]
  simp only [HV_DIMENSIONS]
  norm_num
  rw [permute_foldl_eq0 hv 0 (by norm_num) (List.finRange 16) hdc_clear d,
    if_pos (List.mem_finRange _)]
  congr 1
  apply Fin.ext
  simp only [srcLow]
  omega

/-- Bytes of a permuted in-bounds vector are in bounds. -/
lemma hdc_permute_inBounds (hv : hv_t) (hb : inBounds hv) (s : Nat) :
    inBounds (hdc_permute hv s) := by
  intro d
  by_cases hs : s = 0
  · subst hs; rw [hdc_permute_zero]; exact hb d
  · rw [hdc_permute_apply hv hb s hs d]
    split
    · exact hb _
    · exact or_lt_256 (Nat.mod_lt _ (by norm_num)) (shiftRight_lt_256 (hb _) _)

/-- The central rotation property: bit `p` of the input appears at position
`(p + s) mod 128` of the output. -/
lemma getBit_hdc_permute (hv : hv_t) (hb : inBounds hv) (s : Nat) (p : Fin 128) :
    getBit (hdc_permute hv s) ⟨(p.val + s) % 128, Nat.mod_lt _ (by norm_num)⟩
      = getBit hv p := by
  have hp := p.isLt
  by_cases hs : s = 0
  · subst hs
    rw [hdc_permute_zero]
    congr 1
    apply Fin.ext
    simp only []
    omega
  · unfold getBit
    simp only []
    rw [hdc_permute_apply hv hb s hs ⟨(p.val + s) % 128 / 8, by omega⟩]
    by_cases ht : s % 128 % 8 = 0
    · rw [if_pos ht]
      have hbyte : srcLow (s % 128 / 8) ⟨(p.val + s) % 128 / 8, by omega⟩
          = ⟨p.val / 8, by omega⟩ := by
        apply Fin.ext
        simp only [srcLow]
        omega
      have hbit : (p.val + s) % 128 % 8 = p.val % 8 := by omega
      rw [hbyte, hbit]
    · rw [if_neg ht]
      rw [two_pow_eight, Nat.testBit_or, Nat.testBit_mod_two_pow, Nat.testBit_shiftLeft,
        Nat.testBit_shiftRight]
      have hk8 : (p.val + s) % 128 % 8 < 8 := by omega
      rw [decide_eq_true hk8, Bool.true_and]
      by_cases hkt : s % 128 % 8 ≤ (p.val + s) % 128 % 8
      · -- no byte-carry for this bit: it comes from the shifted-up low part
        have hHbit : (hv (srcHigh (s % 128 / 8) ⟨(p.val + s) % 128 / 8, by omega⟩)).testBit
            (8 - s % 128 % 8 + (p.val + s) % 128 % 8) = false :=
          testBit_of_ge_eight (hb _) (by omega)
        rw [hHbit, Bool.or_false, decide_eq_true (by omega : (p.val + s) % 128 % 8 ≥ s % 128 % 8),
          Bool.true_and]
        have hbyte : srcLow (s % 128 / 8) ⟨(p.val + s) % 128 / 8, by omega⟩
            = ⟨p.val / 8, by omega⟩ := by
          apply Fin.ext
          simp only [srcLow]
          omega
        have hbit : (p.val + s) % 128 % 8 - s % 128 % 8 = p.val % 8 := by omega
        rw [hbyte, hbit]
      · -- this bit carried across a byte boundary: it comes from the high part
        rw [decide_eq_false (by omega : ¬((p.val + s) % 128 % 8 ≥ s % 128 % 8)),
          Bool.false_and, Bool.false_or]
        have hbyte : srcHigh (s % 128 / 8) ⟨(p.val + s) % 128 / 8, by omega⟩
            = ⟨p.val / 8, by omega⟩ := by
          apply Fin.ext
          simp only [srcHigh]
          omega
        have hbit : 8 - s % 128 % 8 + (p.val + s) % 128 % 8 = p.val % 8 := by omega
        rw [hbyte, hbit]

/-- Rotation is a bijection on bit positions, so it preserves the number of
set bits. -/
lemma numOnes_hdc_permute (a : hv_t) (hb : inBounds a) (s : Nat) :
    numOnes (hdc_permute a s) = numOnes a := by
  unfold numOnes
  symm
  apply Finset.card_nbij
    (i := fun p : Fin 128 => (⟨(p.val + s) % 128, Nat.mod_lt _ (by norm_num)⟩ : Fin 128))
  · intro p hp
    simp only [Finset.mem_filter, Finset.mem_univ, true_and] at hp ⊢
    rw [getBit_hdc_permute a hb s p]
    exact hp
  · intro p1 h1 p2 h2 heq
    simp only [Fin.mk.injEq] at heq
    have e1 := p1.isLt
    have e2 := p2.isLt
    apply Fin.ext
    omega
  · intro q hq
    simp only [Finset.coe_filter, Finset.mem_univ, true_and, Set.mem_setOf_eq] at hq
    have hq128 := q.isLt
    refine ⟨⟨(q.val + 128 - s % 128) % 128, Nat.mod_lt _ (by norm_num)⟩, ?_, ?_⟩
    · have heq : (⟨((q.val + 128 - s % 128) % 128 + s) % 128, Nat.mod_lt _ (by norm_num)⟩ : Fin 128)
          = q := by
        apply Fin.ext
        show ((q.val + 128 - s % 128) % 128 + s) % 128 = q.val
        omega
      simp only [Finset.coe_filter, Finset.mem_univ, true_and, Set.mem_setOf_eq]
      have := getBit_hdc_permute a hb s ⟨(q.val + 128 - s % 128) % 128, Nat.mod_lt _ (by norm_num)⟩
      rw [heq] at this
      rw [← this]
      exact hq
    · apply Fin.ext
      show ((q.val + 128 - s % 128) % 128 + s) % 128 = q.val
      omega

/-- **C2**: `hdc_permute(hv, s)` circularly left-rotates the 128-bit sequence
by `s mod 128` positions: the bit at position `p` of the input ends up at
position `(p + s) mod 128` of the output; `permute(hv, 0)` and
`permute(hv, 128)` leave the vector unchanged. -/
theorem hdc_permute_rotates (hv : hv_t) (hb : inBounds hv) (s : Nat) :
    (∀ p : Fin 128,
      getBit (hdc_permute hv s) ⟨(p.val + s) % 128, Nat.mod_lt _ (by norm_num)⟩ = getBit hv p)
    ∧ hdc_permute hv 0 = hv ∧ hdc_permute hv 128 = hv :=
  ⟨fun p => getBit_hdc_permute hv hb s p, hdc_permute_zero hv, hdc_permute_128 hv⟩

/-- **C3**: the population count is invariant under permutation, for every
shift value. -/
theorem hdc_popcount_hdc_permute (a : hv_t) (hb : inBounds a) (s : Nat) :
    hdc_popcount (hdc_permute a s) = hdc_popcount a := by
  rw [hdc_popcount_eq_numOnes _ (hdc_permute_inBounds a hb s),
    hdc_popcount_eq_numOnes a hb, numOnes_hdc_permute a hb s]

/-- Concrete vector for witnesses: bytes `7, 23, 39, …, 247`. -/
def exA : hv_t := fun i => 16 * i.val + 7

/-- Concrete vector for witnesses: bytes `255, 254, …, 240`. -/
def exB : hv_t := fun i => 255 - i.val

/-- Witness for C2 at `hv := exA`, `s := 13`. -/
theorem hdc_permute_rotates_witness :
    inBounds exA ∧
      ((∀ p : Fin 128,
        getBit (hdc_permute exA 13) ⟨(p.val + 13) % 128, Nat.mod_lt _ (by norm_num)⟩
          = getBit exA p)
      ∧ hdc_permute exA 0 = exA ∧ hdc_permute exA 128 = exA) :=
  ⟨by decide, hdc_permute_rotates exA (by decide) 13⟩

/-- Witness for C3 at `a := exA`, `s := 77`. -/
theorem hdc_popcount_hdc_permute_witness :
    inBounds exA ∧ hdc_popcount (hdc_permute exA 77) = hdc_popcount exA :=
  ⟨by decide, hdc_popcount_hdc_permute exA (by decide) 77⟩

/-! ### Characterizing the thermometer encoder -/

lemma thermo_set_full_apply (hv : hv_t) : ∀ (n : Nat) (d : Fin 16),
    thermo_set_full hv n d = if d.val < n then 0xFF else hv d := by
  intro n
  induction n with
  | zero => intro d; simp [thermo_set_full]
  | succ n ih =>
    intro d
    have hd16 := d.isLt
    by_cases h : n < 16
    · simp only [thermo_set_full, dif_pos h, Function.update_apply, ih]
      by_cases hd : d = (⟨n, h⟩ : Fin 16)
      · rw [if_pos hd, if_pos (by rw [hd]; show n < n + 1; omega)]
      · have hdv : d.val ≠ n := fun hh => hd (Fin.ext hh)
        rw [if_neg hd]
        by_cases hlt : d.val < n
        · rw [if_pos hlt, if_pos (by omega)]
        · rw [if_neg hlt, if_neg (by omega)]
    · simp only [thermo_set_full, dif_neg h, ih]
      rw [if_pos (by omega), if_pos (by omega)]

/-- `level` is always a valid thermometer level for a non-saturating input. -/
lemma thermo_level_lt (value max_value : Nat) (hvm : value < max_value) :
    value * THERMO_LEVELS / max_value < 128 := by
  have hm : 0 < max_value := by omega
  rw [Nat.div_lt_iff_lt_mul hm]
  calc value * THERMO_LEVELS < max_value * THERMO_LEVELS :=
        (Nat.mul_lt_mul_right (by norm_num [THERMO_LEVELS] : 0 < THERMO_LEVELS)).mpr hvm
    _ = 128 * max_value := by rw [THERMO_LEVELS]; ring

/-- Closed form: byte `d` of a non-saturating thermometer encoding. -/
lemma hdc_encode_thermometer_byte (value max_value : Nat) (hvm : value < max_value)
    (d : Fin 16) :
    hdc_encode_thermometer value max_value d =
      if d.val < value * THERMO_LEVELS / max_value / 8 then 0xFF
      else if d.val = value * THERMO_LEVELS / max_value / 8
            ∧ value * THERMO_LEVELS / max_value % 8 > 0 then
        2 ^ (value * THERMO_LEVELS / max_value % 8) - 1
      else 0 := by
  have hlev := thermo_level_lt value max_value hvm
  have hfull : value * THERMO_LEVELS / max_value / 8 < 16 := by omega
  have hrem8 : value * THERMO_LEVELS / max_value % 8 < 8 := Nat.mod_lt _ (by norm_num)
  simp only [hdc_encode_thermometer, if_neg (by omega : ¬ value ≥ max_value), dif_pos hfull]
  by_cases hrem : value * THERMO_LEVELS / max_value % 8 > 0
  · rw [if_pos hrem]
    simp only [Function.update_apply, thermo_set_full_apply, hdc_clear, Nat.one_shiftLeft]
    by_cases hd : d = (⟨value * THERMO_LEVELS / max_value / 8, hfull⟩ : Fin 16)
    · have hdv : d.val = value * THERMO_LEVELS / max_value / 8 := by rw [hd]
      rw [if_pos hd,
        if_neg (show ¬ d.val < value * THERMO_LEVELS / max_value / 8 by omega),
        if_pos (show d.val = value * THERMO_LEVELS / max_value / 8
            ∧ value * THERMO_LEVELS / max_value % 8 > 0 from ⟨hdv, hrem⟩)]
    · have hdv : d.val ≠ value * THERMO_LEVELS / max_value / 8 :=
        fun hh => hd (Fin.ext hh)
      rw [if_neg hd,
        if_neg (show ¬ (d.val = value * THERMO_LEVELS / max_value / 8
            ∧ value * THERMO_LEVELS / max_value % 8 > 0) from fun hc => hdv hc.1)]
  · rw [if_neg hrem]
    simp only [thermo_set_full_apply, hdc_clear]
    rw [if_neg (show ¬ (d.val = value * THERMO_LEVELS / max_value / 8
        ∧ value * THERMO_LEVELS / max_value % 8 > 0) from fun hc => hrem hc.2)]

/-- Saturation: any `value ≥ max_value` produces the all-ones vector. -/
lemma hdc_encode_thermometer_sat (value max_value : Nat) (h : value ≥ max_value) :
    hdc_encode_thermometer value max_value = hdc_fill 0xFF := by
  simp [hdc_encode_thermometer, h]

/-- Every byte of a thermometer encoding is a valid `uint8_t`. -/
lemma hdc_encode_thermometer_inBounds (value max_value : Nat) :
    inBounds (hdc_encode_thermometer value max_value) := by
  intro d
  by_cases h : value ≥ max_value
  · rw [hdc_encode_thermometer_sat value max_value h]
    norm_num [hdc_fill]
  · rw [hdc_encode_thermometer_byte value max_value (by omega) d]
    have hrem8 : value * THERMO_LEVELS / max_value % 8 < 8 := Nat.mod_lt _ (by norm_num)
    have hpow : (2:Nat) ^ (value * THERMO_LEVELS / max_value % 8) ≤ 2 ^ 7 :=
      Nat.pow_le_pow_right (by norm_num) (by omega)
    split
    · norm_num
    · split
      · norm_num at hpow ⊢; omega
      · norm_num

lemma testBit_255 (k : Nat) : (255 : Nat).testBit k = decide (k < 8) := by
  have h : (255 : Nat) = 2 ^ 8 - 1 := by norm_num
  rw [h, Nat.testBit_two_pow_sub_one]

/-- Bit-level characterization of a non-saturating thermometer encoding:
exactly the first `level` bits (ascending position) are set. -/
lemma getBit_hdc_encode_thermometer (value max_value : Nat) (hvm : value < max_value)
    (p : Fin 128) :
    getBit (hdc_encode_thermometer value max_value) p
      = decide (p.val < value * THERMO_LEVELS / max_value) := by
  have hp := p.isLt
  have hlev := thermo_level_lt value max_value hvm
  unfold getBit
  rw [hdc_encode_thermometer_byte value max_value hvm ⟨p.val / 8, by omega⟩]
  have hrem8 : value * THERMO_LEVELS / max_value % 8 < 8 := Nat.mod_lt _ (by norm_num)
  by_cases hlt : p.val / 8 < value * THERMO_LEVELS / max_value / 8
  · rw [if_pos hlt, testBit_255, decide_eq_true (by omega : p.val % 8 < 8)]
    symm
    rw [decide_eq_true_eq]
    omega
  · rw [if_neg hlt]
    by_cases hd : p.val / 8 = value * THERMO_LEVELS / max_value / 8
            ∧ value * THERMO_LEVELS / max_value % 8 > 0
    · rw [if_pos hd, Nat.testBit_two_pow_sub_one]
      apply decide_eq_decide.mpr
      omega
    · rw [if_neg hd, Nat.zero_testBit]
      symm
      rw [decide_eq_false_iff_not]
      omega

lemma hdc_encode_thermometer_zero (max_value : Nat) (hm : 0 < max_value) :
    hdc_encode_thermometer 0 max_value = hdc_clear := by
  funext d
  rw [hdc_encode_thermometer_byte 0 max_value hm d]
  simp [hdc_clear]

/-- **C1**: thermometer encoding saturates to all-ones for `value ≥ max_value`;
otherwise `level = ⌊value·128/max_value⌋ ∈ [0,127]` and exactly the first
`level` bits (ascending position, LSB-first per byte) are set; the boundary
cases `encode(0, max) = zero` and `encode(max, max) = all-ones` follow. -/
theorem hdc_encode_thermometer_spec (value max_value : Nat) (hm : 0 < max_value)
    (hv16 : value < 65536) (hm16 : max_value < 65536) :
    (value ≥ max_value → hdc_encode_thermometer value max_value = hdc_fill 0xFF)
    ∧ (value < max_value →
        value * THERMO_LEVELS / max_value < 128
        ∧ ∀ p : Fin 128,
            getBit (hdc_encode_thermometer value max_value) p
              = decide (p.val < value * THERMO_LEVELS / max_value))
    ∧ hdc_encode_thermometer 0 max_value = hdc_clear
    ∧ hdc_encode_thermometer max_value max_value = hdc_fill 0xFF :=
  ⟨fun h => hdc_encode_thermometer_sat value max_value h,
   fun h => ⟨thermo_level_lt value max_value h,
     fun p => getBit_hdc_encode_thermometer value max_value h p⟩,
   hdc_encode_thermometer_zero max_value hm,
   hdc_encode_thermometer_sat max_value max_value (le_refl _)⟩

/-- Witness for C1 at `value := 300`, `max_value := 1000`. -/
theorem hdc_encode_thermometer_spec_witness :
    (0 < 1000 ∧ 300 < 65536 ∧ 1000 < 65536)
    ∧ ((300 ≥ 1000 → hdc_encode_thermometer 300 1000 = hdc_fill 0xFF)
      ∧ (300 < 1000 →
          300 * THERMO_LEVELS / 1000 < 128
          ∧ ∀ p : Fin 128,
              getBit (hdc_encode_thermometer 300 1000) p
                = decide (p.val < 300 * THERMO_LEVELS / 1000))
      ∧ hdc_encode_thermometer 0 1000 = hdc_clear
      ∧ hdc_encode_thermometer 1000 1000 = hdc_fill 0xFF) :=
  ⟨⟨by norm_num, by norm_num, by norm_num⟩,
   hdc_encode_thermometer_spec 300 1000 (by norm_num) (by norm_num) (by norm_num)⟩

/-- **C4**: thermometer encoding is monotone in its value argument:
for `v1 < v2 ≤ max`, the popcount of the encoding of `v1` is at most
the popcount of the encoding of `v2`. -/
theorem hdc_encode_thermometer_monotone (v1 v2 max_value : Nat) (hm : 0 < max_value)
    (h12 : v1 < v2) (h2m : v2 ≤ max_value) :
    hdc_popcount (hdc_encode_thermometer v1 max_value)
      ≤ hdc_popcount (hdc_encode_thermometer v2 max_value) := by
  rw [hdc_popcount_eq_numOnes _ (hdc_encode_thermometer_inBounds v1 max_value),
    hdc_popcount_eq_numOnes _ (hdc_encode_thermometer_inBounds v2 max_value)]
  unfold numOnes
  apply Finset.card_le_card
  intro p hp
  simp only [Finset.mem_filter, Finset.mem_univ, true_and] at hp ⊢
  have h1m : v1 < max_value := by omega
  rw [getBit_hdc_encode_thermometer v1 max_value h1m p] at hp
  by_cases h2 : v2 < max_value
  · rw [getBit_hdc_encode_thermometer v2 max_value h2 p]
    rw [decide_eq_true_eq] at hp ⊢
    have hmul : v1 * THERMO_LEVELS ≤ v2 * THERMO_LEVELS :=
      Nat.mul_le_mul_right _ (by omega)
    have hdiv : v1 * THERMO_LEVELS / max_value ≤ v2 * THERMO_LEVELS / max_value :=
      Nat.div_le_div_right hmul
    omega
  · rw [hdc_encode_thermometer_sat v2 max_value (by omega)]
    unfold getBit hdc_fill
    rw [testBit_255, decide_eq_true (by omega : p.val % 8 < 8)]

/-- Witness for C4 at `v1 := 10`, `v2 := 20`, `max_value := 100`. -/
theorem hdc_encode_thermometer_monotone_witness :
    (0 < 100 ∧ 10 < 20 ∧ 20 ≤ 100)
    ∧ hdc_popcount (hdc_encode_thermometer 10 100)
        ≤ hdc_popcount (hdc_encode_thermometer 20 100) :=
  ⟨⟨by norm_num, by norm_num, by norm_num⟩,
   hdc_encode_thermometer_monotone 10 20 100 (by norm_num) (by norm_num) (by norm_num)⟩

/-- **C9**: with `max_value = 0` the saturation branch `value >= max_value`
is always taken (`value` is unsigned), so the output is all-ones and the
division by `max_value` is never reached. -/
theorem hdc_encode_thermometer_max0 (value : Nat) :
    hdc_encode_thermometer value 0 = hdc_fill 0xFF :=
  hdc_encode_thermometer_sat value 0 (Nat.zero_le value)

/-! ### Hamming distance and similarity -/

lemma hdc_hamming_eq_popcount_xor (a b : hv_t) :
    hdc_hamming a b = hdc_popcount (hdc_xor a b) := rfl

lemma getBit_hdc_xor (a b : hv_t) (p : Fin 128) :
    getBit (hdc_xor a b) p = (getBit a p ^^ getBit b p) := by
  unfold getBit hdc_xor
  rw [Nat.testBit_xor]

lemma inBounds_hdc_xor (a b : hv_t) (ha : inBounds a) (hb : inBounds b) :
    inBounds (hdc_xor a b) :=
  fun i => xor_lt_256 (ha i) (hb i)

/-- The Hamming distance counts exactly the differing bit positions. -/
lemma hdc_hamming_eq_numDiff (a b : hv_t) (ha : inBounds a) (hb : inBounds b) :
    hdc_hamming a b = numDiff a b := by
  rw [hdc_hamming_eq_popcount_xor,
    hdc_popcount_eq_numOnes _ (inBounds_hdc_xor a b ha hb)]
  unfold numOnes numDiff
  congr 1
  apply Finset.filter_congr
  intro p _
  rw [getBit_hdc_xor]
  cases getBit a p <;> cases getBit b p <;> simp

lemma hdc_hamming_comm (a b : hv_t) : hdc_hamming a b = hdc_hamming b a := by
  unfold hdc_hamming
  congr 1
  funext distance i
  rw [Nat.xor_comm]

lemma eq_of_getBit_eq (a b : hv_t) (ha : inBounds a) (hb : inBounds b)
    (h : ∀ p : Fin 128, getBit a p = getBit b p) : a = b := by
  funext i
  apply Nat.eq_of_testBit_eq
  intro k
  by_cases hk : k < 8
  · have hp := h (bytePos (i, ⟨k, hk⟩))
    rw [getBit_bytePos, getBit_bytePos] at hp
    exact hp
  · rw [testBit_of_ge_eight (ha i) (by omega), testBit_of_ge_eight (hb i) (by omega)]

lemma hdc_hamming_le_128 (a b : hv_t) (ha : inBounds a) (hb : inBounds b) :
    hdc_hamming a b ≤ 128 := by
  rw [hdc_hamming_eq_sum a b ha hb]
  calc ∑ i : Fin 16, hdc_popcount8 (a i ^^^ b i)
      ≤ Finset.univ.card • 8 := Finset.sum_le_card_nsmul _ _ 8
        (fun i _ => hdc_popcount8_le _ (xor_lt_256 (ha i) (hb i)))
    _ = 128 := by simp

/-- **C5**: the Hamming distance equals the number of differing bit positions
(the popcount of the XOR); it is symmetric, zero iff the vectors are equal,
and 128 iff they are bit-complements of each other. -/
theorem hdc_hamming_spec (a b : hv_t) (ha : inBounds a) (hb : inBounds b) :
    hdc_hamming a b = numDiff a b
    ∧ hdc_hamming a b = hdc_popcount (hdc_xor a b)
    ∧ hdc_hamming a b = hdc_hamming b a
    ∧ (hdc_hamming a b = 0 ↔ a = b)
    ∧ (hdc_hamming a b = 128 ↔ isComplementOf b a) := by
  refine ⟨hdc_hamming_eq_numDiff a b ha hb, rfl, hdc_hamming_comm a b, ?_, ?_⟩
  · rw [hdc_hamming_eq_numDiff a b ha hb]
    unfold numDiff
    rw [Finset.card_eq_zero]
    constructor
    · intro h
      apply eq_of_getBit_eq a b ha hb
      intro p
      have hp := Finset.filter_eq_empty_iff.mp h (Finset.mem_univ p)
      revert hp
      cases getBit a p <;> cases getBit b p <;> simp
    · intro h
      subst h
      apply Finset.filter_eq_empty_iff.mpr
      intro p _
      simp
  · rw [hdc_hamming_eq_numDiff a b ha hb]
    unfold numDiff
    constructor
    · intro h
      have huniv := (Finset.card_eq_iff_eq_univ _).mp (by rw [h]; simp)
      intro p
      have hp := Finset.filter_eq_self.mp huniv p (Finset.mem_univ p)
      revert hp
      cases getBit a p <;> cases getBit b p <;> simp
    · intro h
      have huniv : (Finset.univ.filter (fun p : Fin 128 => getBit a p ≠ getBit b p))
          = Finset.univ := by
        apply Finset.filter_eq_self.mpr
        intro p _
        have hp := h p
        revert hp
        cases getBit a p <;> cases getBit b p <;> simp
      rw [huniv]
      simp

/-- Witness for C5 at `a := exA`, `b := exB`. -/
theorem hdc_hamming_spec_witness :
    (inBounds exA ∧ inBounds exB)
    ∧ (hdc_hamming exA exB = numDiff exA exB
      ∧ hdc_hamming exA exB = hdc_popcount (hdc_xor exA exB)
      ∧ hdc_hamming exA exB = hdc_hamming exB exA
      ∧ (hdc_hamming exA exB = 0 ↔ exA = exB)
      ∧ (hdc_hamming exA exB = 128 ↔ isComplementOf exB exA)) :=
  ⟨⟨by decide, by decide⟩, hdc_hamming_spec exA exB (by decide) (by decide)⟩

/-- **C6**: `similarity + hamming = 128`; similarity is symmetric and lies
in `[0, 128]`, so the `uint8_t` subtraction `128 - hamming` never wraps. -/
theorem hdc_similarity_spec (a b : hv_t) (ha : inBounds a) (hb : inBounds b) :
    hdc_similarity a b + hdc_hamming a b = 128
    ∧ hdc_similarity a b = hdc_similarity b a
    ∧ hdc_similarity a b ≤ 128 := by
  have hle := hdc_hamming_le_128 a b ha hb
  have hcomm := hdc_hamming_comm a b
  unfold hdc_similarity
  rw [← hcomm,
    Nat.mod_eq_of_lt (show HV_DIMENSIONS - hdc_hamming a b < 256 by
      unfold HV_DIMENSIONS; omega)]
  exact ⟨by unfold HV_DIMENSIONS; omega, rfl, by unfold HV_DIMENSIONS; omega⟩

/-- Witness for C6 at `a := exA`, `b := exB`. -/
theorem hdc_similarity_spec_witness :
    (inBounds exA ∧ inBounds exB)
    ∧ (hdc_similarity exA exB + hdc_hamming exA exB = 128
      ∧ hdc_similarity exA exB = hdc_similarity exB exA
      ∧ hdc_similarity exA exB ≤ 128) :=
  ⟨⟨by decide, by decide⟩, hdc_similarity_spec exA exB (by decide) (by decide)⟩

/-- **C7**: multi-channel encoding is order-independent: permuting the
channels (values and basis vectors simultaneously, i.e. as pairs) leaves
the bundled result unchanged. -/
theorem hdc_encode_multi_channel_perm (values values2 : List Nat)
    (basis_vectors basis_vectors2 : List hv_t)
    (h : (values.zip basis_vectors).Perm (values2.zip basis_vectors2)) :
    hdc_encode_multi_channel values basis_vectors
      = hdc_encode_multi_channel values2 basis_vectors2 := by
  unfold hdc_encode_multi_channel
  exact h.foldl_eq'
    (fun x _ y _ z => funext fun i => natOr_rotate (z i) _ _) hdc_clear

/-- Witness for C7: two channels, swapped. -/
theorem hdc_encode_multi_channel_perm_witness :
    (([300, 700] : List Nat).zip [exA, exB]).Perm
        (([700, 300] : List Nat).zip [exB, exA])
    ∧ hdc_encode_multi_channel [300, 700] [exA, exB]
        = hdc_encode_multi_channel [700, 300] [exB, exA] :=
  ⟨List.Perm.swap _ _ _,
   hdc_encode_multi_channel_perm _ _ _ _ (List.Perm.swap _ _ _)⟩

/-- **C8**: bind (XOR) is self-inverse with the zero vector as identity:
`bind(bind(x,b),b) = x`, `bind(x, zero) = x`, `bind(x,x) = zero`. -/
theorem hdc_xor_spec (x b : hv_t) :
    hdc_xor (hdc_xor x b) b = x ∧ hdc_xor x hdc_clear = x
      ∧ hdc_xor x x = hdc_clear := by
  refine ⟨funext fun i => ?_, funext fun i => ?_, funext fun i => ?_⟩
  · show (x i ^^^ b i) ^^^ b i = x i
    rw [Nat.xor_assoc, Nat.xor_self, Nat.xor_zero]
  · exact Nat.xor_zero (x i)
  · exact Nat.xor_self (x i)

/-- **C10**: `hdc_copy` with identical source and destination leaves the
vector equal to its prior value. -/
theorem hdc_copy_self (x : hv_t) : hdc_copy x x = x := rfl
